import Mathlib

/-
  Verification of the pack/index reading core of the gogit library
  (repository.go).  The Go code is shallowly embedded: byte buffers
  become `List Nat` (each entry a byte value, reduced mod 256 where a
  Go `byte` conversion happens), Go's 64-bit machine arithmetic is
  `Nat` with explicit `% 2 ^ 64` where overflow can occur, fallible
  operations return `Option` or `Except`, and a Go runtime panic
  (index out of range, unbounded recursion) is modelled by the
  distinguished error `GoErr.goPanic` / by `none`.
-/

namespace Gogit

/-- Outcomes of fallible Go code: `goError` is an error value returned
through the `error` result, `goPanic` models a runtime fault (index out
of range, stack exhaustion) that aborts the call. -/
inductive GoErr where
  | goError : String → GoErr
  | goPanic : String → GoErr
deriving DecidableEq, Repr

/-- `binary.BigEndian.Uint32` over a 4-byte slice.  Bytes are reduced
mod 256 because Go bytes are `uint8`. -/
def beU32 (l : List Nat) : Nat :=
  (l.getD 0 0 % 256) * 2 ^ 24 + (l.getD 1 0 % 256) * 2 ^ 16 +
    (l.getD 2 0 % 256) * 2 ^ 8 + (l.getD 3 0 % 256)

/-- `binary.BigEndian.Uint64` over an 8-byte slice. -/
def beU64 (l : List Nat) : Nat :=
  (l.getD 0 0 % 256) * 2 ^ 56 + (l.getD 1 0 % 256) * 2 ^ 48 +
    (l.getD 2 0 % 256) * 2 ^ 40 + (l.getD 3 0 % 256) * 2 ^ 32 +
    (l.getD 4 0 % 256) * 2 ^ 24 + (l.getD 5 0 % 256) * 2 ^ 16 +
    (l.getD 6 0 % 256) * 2 ^ 8 + (l.getD 7 0 % 256)

/-- The shift table of `readLenInPackFile`:
`shift := [...]byte{0, 4, 11, 18, 25, 32, 39, 46, 53, 60}`. -/
def lenShift : List Nat := [0, 4, 11, 18, 25, 32, 39, 46, 53, 60]

/-- The loop of `readLenInPackFile`.  The first argument is the suffix
of the buffer starting at index `advance`; the head is `buf[advance]`.
While `buf[advance]&0x80 > 0` the code advances and adds
`int(buf[advance]&0x7F) << shift[advance]` (Go `int` is 64-bit, hence
the `% 2 ^ 64`).  An out-of-range access to `buf` or to the ten-entry
`shift` array is a Go panic, modelled by `none`. -/
def lenLoop : List Nat → Nat → Nat → Option (Nat × Nat)
  | [], _, _ => none
  | b :: rest, advance, length =>
    if 0 < b &&& 0x80 then
      match lenShift.get? (advance + 1), rest with
      | some sh, b2 :: _ =>
          lenLoop rest (advance + 1) ((length + (((b2 &&& 0x7F) <<< sh) % 2 ^ 64)) % 2 ^ 64)
      | _, _ => none
    else
      some (length, advance + 1)

/-- `readLenInPackFile(buf) (length, advance)`: the object length in a
packfile.  `length = int(buf[0] & 0x0F)`, then the continuation loop. -/
def readLenInPackFile (buf : List Nat) : Option (Nat × Nat) :=
  match buf with
  | [] => none
  | b :: _ => lenLoop buf 0 (b &&& 0x0F)

/-- Sum of the continuation contributions of `readLenInPackFile`
starting at absolute position `a`: the byte at relative index 1
contributes its low 7 bits shifted by `lenShift[a+1]`, and so on. -/
def suffSum : List Nat → Nat → Nat → Nat
  | _, _, 0 => 0
  | s, a, k + 1 =>
      ((s.getD 1 0 &&& 0x7F) <<< lenShift.getD (a + 1) 0) + suffSum (s.drop 1) (a + 1) k

theorem lenShift_get? (j : Nat) (h : j ≤ 9) : lenShift.get? j = some (lenShift.getD j 0) := by
  interval_cases j <;> rfl

theorem lenLoop_cons (b : Nat) (rest : List Nat) (advance length : Nat) :
    lenLoop (b :: rest) advance length =
      if 0 < b &&& 0x80 then
        match lenShift.get? (advance + 1), rest with
        | some sh, b2 :: _ =>
            lenLoop rest (advance + 1) ((length + (((b2 &&& 0x7F) <<< sh) % 2 ^ 64)) % 2 ^ 64)
        | _, _ => none
      else some (length, advance + 1) := rfl

theorem lenLoop_spec : ∀ (k : Nat) (s : List Nat) (a len : Nat), len < 2 ^ 64 →
    a + 1 + k ≤ 10 → k < s.length →
    (∀ i, i < k → 0 < s.getD i 0 &&& 0x80) → s.getD k 0 &&& 0x80 = 0 →
    lenLoop s a len = some ((len + suffSum s a k) % 2 ^ 64, a + k + 1) := by
  intro k
  induction k with
  | zero =>
    intro s a len hlt _ hlen _ hstop
    match s, hlen with
    | b :: rest, _ =>
      simp only [List.getD_cons_zero] at hstop
      simp only [lenLoop, hstop, Nat.lt_irrefl, if_false, suffSum]
      simp
      omega
  | succ k ih =>
    intro s a len hlt hk hlen hcont hstop
    match s, hlen with
    | b :: rest, hlen =>
      have hb : 0 < b &&& 0x80 := by
        have := hcont 0 (Nat.succ_pos k)
        simpa using this
      have ha9 : a + 1 ≤ 9 := by omega
      have hrest : k < rest.length := by
        simpa [Nat.succ_lt_succ_iff] using hlen
      match rest, hrest with
      | b2 :: rest2, hrest =>
        rw [lenLoop_cons, if_pos hb, lenShift_get? (a + 1) ha9]
        show lenLoop (b2 :: rest2) (a + 1)
            ((len + (((b2 &&& 0x7F) <<< lenShift.getD (a + 1) 0) % 2 ^ 64)) % 2 ^ 64) = _
        rw [ih (b2 :: rest2) (a + 1)
          ((len + (((b2 &&& 0x7F) <<< lenShift.getD (a + 1) 0) % 2 ^ 64)) % 2 ^ 64)
          (Nat.mod_lt _ (by norm_num)) (by omega) hrest
          (fun i hi => by have := hcont (i + 1) (by omega); simpa using this)
          (by have := hstop; simpa using this)]
        simp only [suffSum, List.getD_cons_succ, List.getD_cons_zero, List.drop_succ_cons,
          List.drop_zero]
        refine congrArg some (Prod.ext ?_ (by omega))
        simp only
        omega

theorem suffSum_eq (k : Nat) : ∀ (s : List Nat) (a : Nat),
    suffSum s a k = ∑ i ∈ Finset.range k,
      ((s.getD (i + 1) 0 &&& 0x7F) <<< lenShift.getD (a + 1 + i) 0) := by
  induction k with
  | zero => intro s a; simp [suffSum]
  | succ k ih =>
    intro s a
    rw [Finset.sum_range_succ', suffSum, ih]
    have hdrop : ∀ i : Nat, (s.drop 1).getD (i + 1) 0 = s.getD (i + 2) 0 := by
      intro i
      simp [List.getD_eq_getElem?_getD, List.getElem?_drop]
    rw [Nat.add_comm]
    congr 1
    refine Finset.sum_congr rfl ?_
    intro i _
    rw [hdrop i]
    congr 2
    omega

/-- C4: for a packed-object header whose continuation run has length
`k ≤ 9` and ends inside the buffer, `readLenInPackFile` returns the
size built from the low 4 bits of byte 0 plus, for each continuation
byte at position `i + 1`, its low 7 bits shifted by the schedule
`{0, 4, 11, 18, 25, 32, 39, 46, 53, 60}` indexed by that position
(the first continuation byte contributes at shift 4); the byte count
consumed is `k + 1`.  The `% 2 ^ 64` reflects Go's 64-bit `int`
accumulator. -/
theorem readLenInPackFile_spec (buf : List Nat) (k : Nat) (hk9 : k ≤ 9) (hklen : k < buf.length)
    (hcont : ∀ i, i < k → 0 < buf.getD i 0 &&& 0x80) (hstop : buf.getD k 0 &&& 0x80 = 0) :
    readLenInPackFile buf =
      some (((buf.getD 0 0 &&& 0x0F) +
        ∑ i ∈ Finset.range k, ((buf.getD (i + 1) 0 &&& 0x7F) <<< lenShift.getD (i + 1) 0)) % 2 ^ 64,
        k + 1) := by
  match buf, hklen with
  | b :: rest, hklen =>
    show lenLoop (b :: rest) 0 (b &&& 0x0F) = _
    rw [lenLoop_spec k (b :: rest) 0 (b &&& 0x0F)
      (lt_of_le_of_lt Nat.and_le_right (by norm_num)) (by omega) hklen hcont hstop]
    rw [suffSum_eq]
    simp [Nat.add_comm]

/-- C4 witness: bytes `8F 85 03` decode to size
`15 + (5 <<< 4) + (3 <<< 11) = 6239` consuming 3 bytes. -/
theorem readLenInPackFile_spec_witness : readLenInPackFile [143, 133, 3] = some (6239, 3) := by
  have h := readLenInPackFile_spec [143, 133, 3] 2 (by decide) (by decide)
    (by decide) (by decide)
  rw [h]
  decide

theorem lenLoop_none : ∀ (m : Nat) (s : List Nat) (a len : Nat), 1 ≤ m → a + m = 10 →
    m ≤ s.length → (∀ i, i < m → 0 < s.getD i 0 &&& 0x80) → lenLoop s a len = none := by
  intro m
  induction m with
  | zero => omega
  | succ m ih =>
    intro s a len _ ha hlen hcont
    match s, hlen with
    | b :: rest, hlen =>
      have hb : 0 < b &&& 0x80 := by
        have := hcont 0 (Nat.succ_pos m)
        simpa using this
      by_cases hm : m = 0
      · subst hm
        have ha9 : a = 9 := by omega
        subst ha9
        simp only [lenLoop, hb, if_true]
        rfl
      · have hrest : m ≤ rest.length := by simpa [Nat.succ_le_succ_iff] using hlen
        match rest, Nat.lt_of_lt_of_le (Nat.pos_of_ne_zero hm) hrest with
        | b2 :: rest2, _ =>
          simp only [lenLoop, hb, if_true, lenShift_get? (a + 1) (by omega)]
          exact ih (b2 :: rest2) (a + 1) _ (Nat.one_le_iff_ne_zero.mpr hm) (by omega) hrest
            (fun i hi => by have := hcont (i + 1) (by omega); simpa using this)

/-- C10: the packed-object-header codec is total exactly for headers
with at most nine continuation bytes.  If all of the first ten bytes
have bit 7 set, the shift-table index runs past the last entry and the
access yields `none` (a Go panic); if the continuation run stops at
some position `k ≤ 9` inside the buffer, a result is returned. -/
theorem readLenInPackFile_total :
    (∀ buf : List Nat, 10 ≤ buf.length → (∀ i, i < 10 → 0 < buf.getD i 0 &&& 0x80) →
      readLenInPackFile buf = none) ∧
    (∀ (buf : List Nat) (k : Nat), k ≤ 9 → k < buf.length →
      (∀ i, i < k → 0 < buf.getD i 0 &&& 0x80) → buf.getD k 0 &&& 0x80 = 0 →
      (readLenInPackFile buf).isSome = true) := by
  constructor
  · intro buf hlen hcont
    match buf, Nat.lt_of_lt_of_le (show (0 : Nat) < 10 by norm_num) hlen with
    | b :: rest, _ =>
      show lenLoop (b :: rest) 0 (b &&& 0x0F) = none
      exact lenLoop_none 10 (b :: rest) 0 (b &&& 0x0F) (by norm_num) rfl hlen hcont
  · intro buf k hk9 hklen hcont hstop
    match buf, hklen with
    | b :: rest, hklen =>
      show (lenLoop (b :: rest) 0 (b &&& 0x0F)).isSome = true
      rw [lenLoop_spec k (b :: rest) 0 (b &&& 0x0F)
        (lt_of_le_of_lt Nat.and_le_right (by norm_num)) (by omega) hklen hcont hstop]
      rfl

/-- C10 witness: ten continuation bytes drive the shift table out of
bounds; a one-byte header with bit 7 clear succeeds. -/
theorem readLenInPackFile_total_witness :
    readLenInPackFile (List.replicate 10 128) = none ∧
      (readLenInPackFile [5]).isSome = true :=
  ⟨readLenInPackFile_total.1 (List.replicate 10 128) (by decide) (by decide),
   readLenInPackFile_total.2 [5] 0 (by decide) (by decide) (by decide) (by decide)⟩

/-- The continuation loop of `readLittleEndianBase128Number`: while the
most recent byte had bit 7 set, the next byte contributes its low 7
bits at `shift` (7 more each time), or-ed into the 64-bit accumulator.
`zpos` is the index of the byte being consumed; the pair returned is
`(toread, zpos + 1)`.  An exhausted buffer is a Go panic (`none`). -/
def lebLoop : List Nat → Nat → Nat → Nat → Option (Nat × Nat)
  | [], _, _, _ => none
  | b :: rest, toread, shift, zpos =>
    let t2 := toread ||| (((b &&& 0x7F) <<< shift) % 2 ^ 64)
    if 0 < b &&& 0x80 then lebLoop rest t2 (shift + 7) (zpos + 1)
    else some (t2, zpos + 1)

/-- `readLittleEndianBase128Number(buf) (toread, zpos)`: plain
little-endian base-128; used on the two numbers at the start of an
inflated delta. -/
def readLittleEndianBase128Number (buf : List Nat) : Option (Nat × Nat) :=
  match buf with
  | [] => none
  | b :: rest =>
    if 0 < b &&& 0x80 then lebLoop rest (b &&& 0x7F) 7 1
    else some (b &&& 0x7F, 1)

/-- The loop of the offset-delta back-reference decoder in the `0x60`
branch of `readObjectBytes`: while `buf[pos]&0x80 > 0`, advance and set
`num = ((num+1) << 7) | int64(buf[pos]&0x7f)` (Go `int64`, hence the
`% 2 ^ 64`).  The first argument is the suffix of the buffer starting
at index `pos` (its head is `buf[pos]`); running off the end of the
buffer is a Go panic (`none`). -/
def deltaRefAux : List Nat → Nat → Nat → Option (Nat × Nat)
  | [], _, _ => none
  | b :: rest, pos, num =>
    if 0 < b &&& 0x80 then
      match rest with
      | [] => none
      | b2 :: _ =>
          deltaRefAux rest (pos + 1) ((((num + 1) <<< 7) ||| (b2 &&& 0x7F)) % 2 ^ 64)
    else some (num, pos + 1)

/-- Offset-delta back-reference decoder:
`num := int64(buf[pos]) & 0x7f` followed by the continuation loop;
returns `(num, pos + 1)` for the final cursor position. -/
def deltaRefGo (buf : List Nat) (pos : Nat) : Option (Nat × Nat) :=
  if pos < buf.length then deltaRefAux (buf.drop pos) pos (buf.getD pos 0 &&& 0x7F) else none

/-- The incremental base-128 recurrence of the offset-delta
back-reference, as an explicit iteration over a byte suffix: starting
from `num`, each of the `k` continuation steps consumes the next byte
and sets `num := ((num + 1) <<< 7) ||| (byte &&& 0x7F)`
(mod `2 ^ 64`). -/
def deltaFoldS : List Nat → Nat → Nat → Nat
  | _, num, 0 => num
  | s, num, k + 1 =>
      deltaFoldS (s.drop 1) ((((num + 1) <<< 7) ||| (s.getD 1 0 &&& 0x7F)) % 2 ^ 64) k

/-- `baseObjectOffset = uint64(offsetInt - num)` in the `0x60` branch:
signed 64-bit subtraction reinterpreted as `uint64`. -/
def baseOffsetOf (offset num : Nat) : Nat :=
  (((offset : Int) - (num : Int)) % (2 ^ 64 : Int)).toNat

theorem deltaRefAux_cons (b : Nat) (rest : List Nat) (pos num : Nat) :
    deltaRefAux (b :: rest) pos num =
      if 0 < b &&& 0x80 then
        match rest with
        | [] => none
        | b2 :: _ => deltaRefAux rest (pos + 1) ((((num + 1) <<< 7) ||| (b2 &&& 0x7F)) % 2 ^ 64)
      else some (num, pos + 1) := rfl

theorem deltaRefAux_spec : ∀ (k : Nat) (s : List Nat) (pos num : Nat), num < 2 ^ 64 →
    k < s.length →
    (∀ i, i < k → 0 < s.getD i 0 &&& 0x80) → s.getD k 0 &&& 0x80 = 0 →
    deltaRefAux s pos num = some (deltaFoldS s num k, pos + k + 1) := by
  intro k
  induction k with
  | zero =>
    intro s pos num _ hlen _ hstop
    match s, hlen with
    | b :: rest, _ =>
      simp only [List.getD_cons_zero] at hstop
      simp only [deltaRefAux, deltaFoldS, hstop, Nat.lt_irrefl, if_false]
  | succ k ih =>
    intro s pos num hnum hlen hcont hstop
    match s, hlen with
    | b :: rest, hlen =>
      have hc0 : 0 < b &&& 0x80 := by
        have := hcont 0 (Nat.succ_pos k)
        simpa using this
      have hrest : k < rest.length := by simpa [Nat.succ_lt_succ_iff] using hlen
      match rest, hrest with
      | b2 :: rest2, hrest =>
        rw [deltaRefAux_cons, if_pos hc0]
        show deltaRefAux (b2 :: rest2) (pos + 1)
          ((((num + 1) <<< 7) ||| (b2 &&& 0x7F)) % 2 ^ 64) = _
        rw [ih (b2 :: rest2) (pos + 1) _ (Nat.mod_lt _ (by norm_num)) hrest
          (fun i hi => by have := hcont (i + 1) (by omega); simpa using this)
          (by have := hstop; simpa using this)]
        refine congrArg some (Prod.ext ?_ (by omega))
        simp [deltaFoldS]

/-- C3: if the continuation run of an offset-delta back-reference at
`pos` has length `k` and ends inside the buffer, the decoder returns
exactly the incremental base-128 iteration started from the first byte
masked with `0x7f`, consuming `k + 1` bytes; and the base object's
offset `uint64(offset - num)` equals `offset - num` whenever
`num ≤ offset < 2 ^ 64`. -/
theorem deltaRefGo_spec (buf : List Nat) (pos k : Nat)
    (hlen : pos + k < buf.length)
    (hcont : ∀ i, i < k → 0 < buf.getD (pos + i) 0 &&& 0x80)
    (hstop : buf.getD (pos + k) 0 &&& 0x80 = 0) :
    deltaRefGo buf pos =
      some (deltaFoldS (buf.drop pos) (buf.getD pos 0 &&& 0x7F) k, pos + k + 1) ∧
    (∀ offset num : Nat, num ≤ offset → offset < 2 ^ 64 → baseOffsetOf offset num = offset - num) := by
  constructor
  · rw [deltaRefGo, if_pos (by omega : pos < buf.length)]
    refine deltaRefAux_spec k (buf.drop pos) pos _
      (lt_of_le_of_lt Nat.and_le_right (by norm_num)) (by simp; omega) ?_ ?_
    · intro i hi
      rw [List.getD_eq_getElem?_getD, List.getElem?_drop, ← List.getD_eq_getElem?_getD]
      exact hcont i hi
    · rw [List.getD_eq_getElem?_getD, List.getElem?_drop, ← List.getD_eq_getElem?_getD]
      exact hstop
  · intro offset num hle hlt
    rw [baseOffsetOf, Int.emod_eq_of_lt (by omega) (by push_cast; omega)]
    omega

/-- C3 witness: bytes `82 05` decode to `((2 + 1) <<< 7) ||| 5 = 389`
consuming 2 bytes, and the base of an object at offset 1000 with
back-reference 389 is at offset 611. -/
theorem deltaRefGo_spec_witness :
    deltaRefGo [130, 5] 0 = some (389, 2) ∧ baseOffsetOf 1000 389 = 611 := by
  have h := deltaRefGo_spec [130, 5] 0 1 (by decide) (by decide) (by decide)
  refine ⟨?_, ?_⟩
  · rw [h.1]; decide
  · have h2 := h.2 1000 389 (by norm_num) (by norm_num)
    rw [h2]

/-- One of the two operand-decoding loops of the copy branch of
`applyDelta`: for each shift in `shs` (the Go loop runs `shift += 8`
per iteration), if the low bit of the rolling opcode is set, consume a
byte from the stream and or it in at that shift, then halve the
opcode.  Returns the accumulator, the rolled opcode and the number of
bytes consumed; `none` models the Go panic on an exhausted stream. -/
def copyLoop : Nat → List Nat → List Nat → Nat → Option (Nat × Nat × Nat)
  | op, [], _, acc => some (acc, op, 0)
  | op, sh :: shs, s, acc =>
    if 0 < op &&& 1 then
      match s with
      | [] => none
      | x :: s2 =>
        match copyLoop (op >>> 1) shs s2 (acc ||| (x <<< sh)) with
        | none => none
        | some (a, o, used) => some (a, o, used + 1)
    else copyLoop (op >>> 1) shs s acc

/-- Overwrite `seg.length` bytes of `l` starting at index `pos`
(the byte-by-byte `resultObject[resultpos] = ...` writes). -/
def writeSeg (l : List Nat) (pos : Nat) (seg : List Nat) : List Nat :=
  l.take pos ++ seg ++ l.drop (pos + seg.length)

/-- The main loop of `applyDelta` over the remaining delta
instructions.  The copy branch decodes `copy_offset` from up to four
bytes (shifts 0, 8, 16, 24) and `copy_length` from up to three (shifts
0, 8, 16), substitutes 65536 for a zero length, and copies from the
base; the insert branch copies the next `opcode` program bytes.  The
Go code performs the copies with unchecked indexing, so an
out-of-bounds source or destination is a runtime panic
(`GoErr.goPanic`), not a returned error; the only returned error is
`opcode == 0`.  No final comparison of bytes written against the
declared result length is made (the source marks it `TODO`). -/
def deltaLoop (base : List Nat) : List Nat → Nat → List Nat → Except GoErr (List Nat)
  | [], _, result => .ok result
  | opcode :: rest, rpos, result =>
    if 0 < opcode &&& 0x80 then
      match copyLoop opcode [0, 8, 16, 24] rest 0 with
      | none => .error (.goPanic "index out of range")
      | some (cOff, op2, u1) =>
        match copyLoop op2 [0, 8, 16] (rest.drop u1) 0 with
        | none => .error (.goPanic "index out of range")
        | some (cLen0, _, u2) =>
          let cLen := if cLen0 = 0 then 65536 else cLen0
          if cOff + cLen ≤ base.length ∧ rpos + cLen ≤ result.length then
            deltaLoop base (rest.drop (u1 + u2)) (rpos + cLen)
              (writeSeg result rpos ((base.drop cOff).take cLen))
          else .error (.goPanic "index out of range")
    else if 0 < opcode then
      if opcode ≤ rest.length ∧ rpos + opcode ≤ result.length then
        deltaLoop base (rest.drop opcode) (rpos + opcode) (writeSeg result rpos (rest.take opcode))
      else .error (.goPanic "index out of range")
    else .error (.goError "opcode == 0")
termination_by p _ _ => p.length
decreasing_by
  · simp only [List.length_drop, List.length_cons]; omega
  · simp only [List.length_drop, List.length_cons]; omega

/-- `applyDelta(b, base, resultLen)`: allocate a zeroed result buffer
of `resultLen` bytes and run the instruction loop. -/
def applyDelta (b base : List Nat) (resultLen : Nat) : Except GoErr (List Nat) :=
  deltaLoop base b 0 (List.replicate resultLen 0)

/-- The bytes a copy opcode consumes for one operand-decoding loop:
one byte per set low bit of the rolling opcode, in order. -/
def selStream : Nat → List Nat → List Nat → List Nat
  | op, _ :: shs, x :: xs => (if 0 < op &&& 1 then [x] else []) ++ selStream (op >>> 1) shs xs
  | _, _, _ => []

/-- The value a copy-operand loop decodes: each selected byte placed
at its shift, absent bytes contributing zero. -/
def valueOf : Nat → List Nat → List Nat → Nat
  | op, sh :: shs, x :: xs =>
      (if 0 < op &&& 1 then x <<< sh else 0) ||| valueOf (op >>> 1) shs xs
  | _, _, _ => 0

theorem copyLoop_spec : ∀ (shs xs : List Nat) (op : Nat) (s : List Nat) (acc : Nat),
    xs.length = shs.length →
    copyLoop op shs (selStream op shs xs ++ s) acc =
      some (acc ||| valueOf op shs xs, op >>> shs.length, (selStream op shs xs).length) := by
  intro shs
  induction shs with
  | nil =>
    intro xs op s acc _
    simp [copyLoop, selStream, valueOf]
  | cons sh shs ih =>
    intro xs op s acc hxs
    match xs, hxs with
    | x :: xs, hxs =>
      have hlen : xs.length = shs.length := by simpa using hxs
      have hsh : (op >>> 1) >>> shs.length = op >>> (shs.length + 1) := by
        rw [← Nat.shiftRight_add, Nat.add_comm]
      by_cases hbit : 0 < op &&& 1
      · rw [show selStream op (sh :: shs) (x :: xs) = x :: selStream (op >>> 1) shs xs from by
          simp only [selStream, if_pos hbit, List.singleton_append]]
        rw [List.cons_append]
        simp only [copyLoop, if_pos hbit]
        rw [ih xs (op >>> 1) s (acc ||| (x <<< sh)) hlen]
        simp only [valueOf, if_pos hbit, List.length_cons]
        rw [Nat.lor_assoc, hsh]
      · rw [show selStream op (sh :: shs) (x :: xs) = selStream (op >>> 1) shs xs from by
          simp only [selStream, if_neg hbit, List.nil_append]]
        simp only [copyLoop, if_neg hbit]
        rw [ih xs (op >>> 1) s acc hlen]
        simp only [valueOf, if_neg hbit, Nat.zero_or, List.length_cons]
        rw [hsh]

/-- A single optional operand byte of a copy opcode: present exactly
when bit `i` of the opcode is set. -/
def optByte (op i x : Nat) : List Nat := if 0 < (op >>> i) &&& 1 then [x] else []

/-- `copy_offset` of a copy opcode: bits 0..3 select the four operand
bytes, placed at shifts 0, 8, 16, 24; an absent byte contributes 0. -/
def copyOffBits (op x0 x1 x2 x3 : Nat) : Nat :=
  (if 0 < (op >>> 0) &&& 1 then x0 <<< 0 else 0) |||
    ((if 0 < (op >>> 1) &&& 1 then x1 <<< 8 else 0) |||
      ((if 0 < (op >>> 2) &&& 1 then x2 <<< 16 else 0) |||
        (if 0 < (op >>> 3) &&& 1 then x3 <<< 24 else 0)))

/-- Raw `copy_length` of a copy opcode: bits 4..6 select the three
operand bytes, placed at shifts 0, 8, 16. -/
def copyLenBits (op y0 y1 y2 : Nat) : Nat :=
  (if 0 < (op >>> 4) &&& 1 then y0 <<< 0 else 0) |||
    ((if 0 < (op >>> 5) &&& 1 then y1 <<< 8 else 0) |||
      (if 0 < (op >>> 6) &&& 1 then y2 <<< 16 else 0))

/-- `copy_length` after the zero substitution: 0 becomes 65536. -/
def copyLenSubst (op y0 y1 y2 : Nat) : Nat :=
  if copyLenBits op y0 y1 y2 = 0 then 65536 else copyLenBits op y0 y1 y2

theorem selOff_eq (op x0 x1 x2 x3 : Nat) :
    selStream op [0, 8, 16, 24] [x0, x1, x2, x3] =
      optByte op 0 x0 ++ (optByte op 1 x1 ++ (optByte op 2 x2 ++ optByte op 3 x3)) := by
  simp [selStream, optByte, Nat.shiftRight_zero, ← Nat.shiftRight_add]

theorem valOff_eq (op x0 x1 x2 x3 : Nat) :
    valueOf op [0, 8, 16, 24] [x0, x1, x2, x3] = copyOffBits op x0 x1 x2 x3 := by
  simp [valueOf, copyOffBits, Nat.shiftRight_zero, ← Nat.shiftRight_add]

theorem selLen_eq (op y0 y1 y2 : Nat) :
    selStream (op >>> 4) [0, 8, 16] [y0, y1, y2] =
      optByte op 4 y0 ++ (optByte op 5 y1 ++ optByte op 6 y2) := by
  simp [selStream, optByte, Nat.shiftRight_zero, ← Nat.shiftRight_add]

theorem valLen_eq (op y0 y1 y2 : Nat) :
    valueOf (op >>> 4) [0, 8, 16] [y0, y1, y2] = copyLenBits op y0 y1 y2 := by
  simp [valueOf, copyLenBits, Nat.shiftRight_zero, ← Nat.shiftRight_add]

/-- C5: a delta program consisting of one copy opcode `op` (bit 7 set)
followed by exactly its selected operand bytes — bits 0..3 of `op`
selecting the `copy_offset` bytes at shifts 0, 8, 16, 24, then bits
4..6 selecting the `copy_length` bytes at shifts 0, 8, 16, absent
bytes zero, a zero length replaced by 65536 — makes `applyDelta`
append `copy_length` bytes of the base starting at `copy_offset`. -/
theorem applyDelta_copy_spec (op x0 x1 x2 x3 y0 y1 y2 : Nat) (base : List Nat)
    (hop : 0 < op &&& 0x80)
    (hbound : copyOffBits op x0 x1 x2 x3 + copyLenSubst op y0 y1 y2 ≤ base.length) :
    applyDelta (op :: (optByte op 0 x0 ++ (optByte op 1 x1 ++ (optByte op 2 x2 ++ (optByte op 3 x3 ++
          (optByte op 4 y0 ++ (optByte op 5 y1 ++ optByte op 6 y2))))))) base
        (copyLenSubst op y0 y1 y2) =
      .ok ((base.drop (copyOffBits op x0 x1 x2 x3)).take (copyLenSubst op y0 y1 y2)) := by
  have hops : (optByte op 0 x0 ++ (optByte op 1 x1 ++ (optByte op 2 x2 ++ (optByte op 3 x3 ++
      (optByte op 4 y0 ++ (optByte op 5 y1 ++ optByte op 6 y2)))))) =
      selStream op [0, 8, 16, 24] [x0, x1, x2, x3] ++
        selStream (op >>> 4) [0, 8, 16] [y0, y1, y2] := by
    rw [selOff_eq, selLen_eq]
    simp [List.append_assoc]
  rw [applyDelta, hops]
  simp only [deltaLoop, if_pos hop]
  rw [copyLoop_spec [0, 8, 16, 24] [x0, x1, x2, x3] op _ 0 rfl]
  simp only [Nat.zero_or]
  rw [show op >>> ([0, 8, 16, 24] : List Nat).length = op >>> 4 from rfl]
  rw [List.drop_left]
  have h2 : copyLoop (op >>> 4) [0, 8, 16] (selStream (op >>> 4) [0, 8, 16] [y0, y1, y2]) 0 =
      some (valueOf (op >>> 4) [0, 8, 16] [y0, y1, y2],
        (op >>> 4) >>> ([0, 8, 16] : List Nat).length,
        (selStream (op >>> 4) [0, 8, 16] [y0, y1, y2]).length) := by
    have h := copyLoop_spec [0, 8, 16] [y0, y1, y2] (op >>> 4) [] 0 rfl
    rw [List.append_nil] at h
    rw [h, Nat.zero_or]
  rw [h2]
  simp only []
  rw [valOff_eq, valLen_eq]
  have hC : (if copyLenBits op y0 y1 y2 = 0 then 65536 else copyLenBits op y0 y1 y2) =
      copyLenSubst op y0 y1 y2 := rfl
  rw [hC]
  rw [if_pos ⟨hbound, by simp⟩]
  have hdrop : (selStream op [0, 8, 16, 24] [x0, x1, x2, x3] ++
      selStream (op >>> 4) [0, 8, 16] [y0, y1, y2]).drop
        ((selStream op [0, 8, 16, 24] [x0, x1, x2, x3]).length +
          (selStream (op >>> 4) [0, 8, 16] [y0, y1, y2]).length) = [] := by
    rw [← List.length_append, List.drop_length]
  rw [hdrop]
  have hseg : writeSeg (List.replicate (copyLenSubst op y0 y1 y2) 0) 0
      ((base.drop (copyOffBits op x0 x1 x2 x3)).take (copyLenSubst op y0 y1 y2)) =
      (base.drop (copyOffBits op x0 x1 x2 x3)).take (copyLenSubst op y0 y1 y2) := by
    rw [writeSeg]
    have hlen : ((base.drop (copyOffBits op x0 x1 x2 x3)).take
        (copyLenSubst op y0 y1 y2)).length = copyLenSubst op y0 y1 y2 := by
      simp only [List.length_take, List.length_drop]
      omega
    rw [hlen]
    simp
  rw [hseg]
  simp only [deltaLoop]

/-- C5 witness: opcode `0x91` (offset byte `2`, length byte `3`) on a
six-byte base copies bytes 2, 3, 4. -/
theorem applyDelta_copy_spec_witness :
    applyDelta [145, 2, 3] [10, 11, 12, 13, 14, 15] 3 = .ok [12, 13, 14] := by
  have h := applyDelta_copy_spec 145 2 0 0 0 3 0 0 [10, 11, 12, 13, 14, 15]
    (by decide) (by decide)
  simpa [optByte, copyOffBits, copyLenBits, copyLenSubst] using h

/-- C7: `applyDelta` on the one-opcode program `[0x80]` (a copy of
65536 bytes from offset 0) over an empty base does not return a
`MalformedDelta`-style error value: the Go code performs the copy with
unchecked indexing and faults (modelled as `goPanic`). -/
theorem applyDelta_oob_panics :
    applyDelta [128] [] 0 = .error (.goPanic "index out of range") := by
  simp [applyDelta, deltaLoop, copyLoop]

/-- C8: `applyDelta` performs no final check of bytes written against
the declared result length: the program `[1, 171]` writes a single
byte yet succeeds with a declared result length of 5, returning the
zero-padded 5-byte buffer. -/
theorem applyDelta_no_length_check :
    applyDelta [1, 171] [] 5 = .ok [171, 0, 0, 0, 0] := by
  simp [applyDelta, deltaLoop, writeSeg]

/-- Go `bytes.Compare`: lexicographic comparison returning -1, 0 or 1
(a proper prefix is smaller). -/
def compareBytes : List Nat → List Nat → Int
  | [], [] => 0
  | [], _ :: _ => -1
  | _ :: _, [] => 1
  | a :: as, b :: bs => if a < b then -1 else if b < a then 1 else compareBytes as bs

theorem compareBytes_eq_zero_iff : ∀ a b : List Nat, compareBytes a b = 0 ↔ a = b := by
  intro a
  induction a with
  | nil =>
    intro b
    cases b with
    | nil => simp [compareBytes]
    | cons y bs => simp [compareBytes]
  | cons x as ih =>
    intro b
    cases b with
    | nil => simp [compareBytes]
    | cons y bs =>
      by_cases h1 : x < y
      · simp [compareBytes, h1]
        omega
      · by_cases h2 : y < x
        · simp [compareBytes, h1, h2]
          omega
        · have hxy : x = y := by omega
          simp [compareBytes, h1, h2, hxy, ih bs]

theorem compareBytes_antisymm : ∀ a b : List Nat, compareBytes a b = -1 → compareBytes b a = 1 := by
  intro a
  induction a with
  | nil =>
    intro b h
    cases b with
    | nil => simp [compareBytes] at h
    | cons y bs => simp [compareBytes]
  | cons x as ih =>
    intro b h
    cases b with
    | nil => simp [compareBytes] at h
    | cons y bs =>
      by_cases h1 : x < y
      · simp [compareBytes, show ¬ y < x by omega, h1]
      · by_cases h2 : y < x
        · simp [compareBytes, h1, h2] at h
        · simp only [compareBytes, if_neg h1, if_neg h2] at h
          simp only [compareBytes, if_neg h2, if_neg h1]
          exact ih bs h

theorem compareBytes_le_trans : ∀ t a b : List Nat, compareBytes t a ≤ 0 →
    compareBytes a b = -1 → compareBytes t b = -1 := by
  intro t
  induction t with
  | nil =>
    intro a b _ hab
    cases b with
    | nil =>
      exfalso
      cases a with
      | nil => simp [compareBytes] at hab
      | cons y as => simp [compareBytes] at hab
    | cons z bs => simp [compareBytes]
  | cons x ts ih =>
    intro a b hta hab
    cases a with
    | nil => simp [compareBytes] at hta
    | cons y as =>
      cases b with
      | nil => simp [compareBytes] at hab
      | cons z bs =>
        have hta' : x < y ∨ (x = y ∧ compareBytes ts as ≤ 0) := by
          by_cases h1 : x < y
          · exact Or.inl h1
          · by_cases h2 : y < x
            · exfalso
              simp [compareBytes, h1, h2] at hta
            · exact Or.inr ⟨by omega, by simpa [compareBytes, h1, h2] using hta⟩
        have hab' : y < z ∨ (y = z ∧ compareBytes as bs = -1) := by
          by_cases h1 : y < z
          · exact Or.inl h1
          · by_cases h2 : z < y
            · exfalso
              simp [compareBytes, h1, h2] at hab
            · exact Or.inr ⟨by omega, by simpa [compareBytes, h1, h2] using hab⟩
        rcases hta' with h1 | ⟨he1, hr1⟩
        · rcases hab' with h2 | ⟨he2, _⟩
          · simp [compareBytes, show x < z by omega]
          · simp [compareBytes, show x < z by omega]
        · rcases hab' with h2 | ⟨he2, hr2⟩
          · simp [compareBytes, show x < z by omega]
          · have hxz : x = z := by omega
            simp only [compareBytes, if_neg (by omega : ¬ x < z), if_neg (by omega : ¬ z < x)]
            exact ih as bs hr1 hr2

/-- Go `sort.Search(n, f)` specialised to the closure in
`offsetForSHA`: `f(h)` is `probe h ≤ 0`, and the side effect
`exactMatch = true` on `probe h == 0` is threaded through `em`
(the probe is pure, so re-evaluating it is immaterial). -/
def searchLoop (probe : Nat → Int) (i j : Nat) (em : Bool) : Nat × Bool :=
  if h : i < j then
    if probe ((i + j) / 2) ≤ 0 then
      searchLoop probe i ((i + j) / 2) (em || (probe ((i + j) / 2) == 0))
    else
      searchLoop probe ((i + j) / 2 + 1) j (em || (probe ((i + j) / 2) == 0))
  else (i, em)
termination_by j - i
decreasing_by
  · omega
  · omega

theorem searchLoop_all_pos : ∀ (n : Nat) (probe : Nat → Int) (i j : Nat) (em : Bool),
    j - i ≤ n → i ≤ j → (∀ k, i ≤ k → k < j → 0 < probe k) →
    searchLoop probe i j em = (j, em) := by
  intro n
  induction n with
  | zero =>
    intro probe i j em hn hij _
    have : i = j := by omega
    subst this
    rw [searchLoop, dif_neg (by omega)]
  | succ n ih =>
    intro probe i j em hn hij hpos
    by_cases hlt : i < j
    · rw [searchLoop, dif_pos hlt]
      have hm : i ≤ (i + j) / 2 ∧ (i + j) / 2 < j := by omega
      have hp := hpos ((i + j) / 2) hm.1 hm.2
      rw [if_neg (by omega)]
      have hb : (probe ((i + j) / 2) == 0) = false := by
        rw [beq_eq_false_iff_ne]
        omega
      rw [hb, Bool.or_false]
      exact ih probe ((i + j) / 2 + 1) j em (by omega) (by omega)
        (fun k hk1 hk2 => hpos k (by omega) hk2)
    · rw [searchLoop, dif_neg hlt]
      have : i = j := by omega
      rw [this]

theorem searchLoop_finds : ∀ (n : Nat) (probe : Nat → Int) (i j m : Nat) (em : Bool),
    j - i ≤ n → i ≤ m → m < j → probe m = 0 →
    (∀ k, i ≤ k → k < m → 0 < probe k) → (∀ k, m < k → k < j → probe k < 0) →
    searchLoop probe i j em = (m, true) := by
  intro n
  induction n with
  | zero =>
    intro probe i j m em hn him hmj _ _ _
    omega
  | succ n ih =>
    intro probe i j m em hn him hmj hm hleft hright
    have hlt : i < j := by omega
    rw [searchLoop, dif_pos hlt]
    have hmid : i ≤ (i + j) / 2 ∧ (i + j) / 2 < j := by omega
    rcases Nat.lt_trichotomy ((i + j) / 2) m with hc | hc | hc
    · have hp := hleft ((i + j) / 2) hmid.1 hc
      rw [if_neg (by omega)]
      have hb : (probe ((i + j) / 2) == 0) = false := by
        rw [beq_eq_false_iff_ne]
        omega
      rw [hb, Bool.or_false]
      exact ih probe ((i + j) / 2 + 1) j m em (by omega) (by omega) hmj hm
        (fun k hk1 hk2 => hleft k (by omega) hk2) hright
    · rw [hc, if_pos (by omega)]
      have hb : (probe m == 0) = true := by
        rw [beq_iff_eq]
        exact hm
      rw [hb, Bool.or_true]
      exact searchLoop_all_pos (m - i) probe i m true le_rfl (by omega) hleft
    · have hp := hright ((i + j) / 2) hc hmid.2
      rw [if_pos (by omega)]
      have hb : (probe ((i + j) / 2) == 0) = false := by
        rw [beq_eq_false_iff_ne]
        omega
      rw [hb, Bool.or_false]
      exact ih probe i ((i + j) / 2) m em (by omega) him hc hm hleft
        (fun k hk1 hk2 => hright k hk1 (by omega))

theorem searchLoop_exact : ∀ (n : Nat) (probe : Nat → Int) (i j : Nat) (em : Bool) (r : Nat),
    j - i ≤ n → searchLoop probe i j em = (r, true) →
    em = true ∨ ∃ m, i ≤ m ∧ m < j ∧ probe m = 0 := by
  intro n
  induction n with
  | zero =>
    intro probe i j em r hn hs
    rw [searchLoop, dif_neg (by omega)] at hs
    exact Or.inl (congrArg Prod.snd hs)
  | succ n ih =>
    intro probe i j em r hn hs
    by_cases hlt : i < j
    · rw [searchLoop, dif_pos hlt] at hs
      by_cases hc : probe ((i + j) / 2) ≤ 0
      · rw [if_pos hc] at hs
        rcases ih probe i ((i + j) / 2) _ r (by omega) hs with hem | ⟨m, hm1, hm2, hm3⟩
        · rcases Bool.or_eq_true_iff.mp hem with h | h
          · exact Or.inl h
          · exact Or.inr ⟨(i + j) / 2, by omega, by omega, beq_iff_eq.mp h⟩
        · exact Or.inr ⟨m, hm1, by omega, hm3⟩
      · rw [if_neg hc] at hs
        rcases ih probe ((i + j) / 2 + 1) j _ r (by omega) hs with hem | ⟨m, hm1, hm2, hm3⟩
        · rcases Bool.or_eq_true_iff.mp hem with h | h
          · exact Or.inl h
          · exact Or.inr ⟨(i + j) / 2, by omega, by omega, beq_iff_eq.mp h⟩
        · exact Or.inr ⟨m, by omega, hm2, hm3⟩
    · rw [searchLoop, dif_neg hlt] at hs
      exact Or.inl (congrArg Prod.snd hs)

/-- The `idxFile` struct: fanout table (256 entries, `int64` values
read from big-endian `uint32`s, hence `Nat`), and the three byte
tables sliced out of the mmapped file. -/
structure IdxFile where
  packpath : String
  fanoutTable : List Nat
  shaTable : List Nat
  offsetTable : List Nat
  offset8Table : List Nat
deriving DecidableEq, Repr

/-- The lower end of the fanout search window:
`if target[0] > 0 { startSearch = fanoutTable[target[0]-1] }`. -/
def fanLo (idx : IdxFile) (b : Nat) : Nat :=
  if 0 < b then idx.fanoutTable.getD (b - 1) 0 else 0

/-- The 20-byte identifier record at rank `k` of the sha table. -/
def shaRec (idx : IdxFile) (k : Nat) : List Nat :=
  (idx.shaTable.drop (k * 20)).take 20

/-- The pack offset stored for rank `k`: the 32-bit big-endian entry
of the offset table if its high bit is clear, otherwise the 64-bit
big-endian entry of the 8-byte table at the slot given by the low 31
bits (`offset&0x80000000 == 0x80000000` and `offset&0x7FFFFFFF`). -/
def resolvedOffset (idx : IdxFile) (k : Nat) : Nat :=
  let offset32 := beU32 ((idx.offsetTable.drop (k * 4)).take 4)
  if 2 ^ 31 ≤ offset32 then
    beU64 ((idx.offset8Table.drop ((offset32 % 2 ^ 31) * 8)).take 8)
  else offset32

/-- `offsetForSHA`: binary search (Go `sort.Search`) over the fanout
window `[startSearch, endSearch)`, comparing 20-byte records; 0 when
no exact match was seen, otherwise the stored offset at the hit
rank. -/
def offsetForSHA (idx : IdxFile) (target : List Nat) : Nat :=
  let startSearch := fanLo idx (target.headD 0)
  let endSearch := idx.fanoutTable.getD (target.headD 0) 0
  let r := searchLoop (fun i => compareBytes target
      ((idx.shaTable.drop ((startSearch + i) * 20)).take 20))
    0 (endSearch - startSearch) false
  if r.2 = false then 0 else resolvedOffset idx (startSearch + r.1)

/-- C1: on a well-formed version-2 index — fanout monotone, sha table
strictly sorted, every record inside its fanout window, every stored
offset nonzero — `offsetForSHA target` is nonzero iff `target` occurs
among the 20-byte records of the sha table, and on a hit at rank `k`
it returns exactly the offset-table entry resolved through the 8-byte
table when the high bit is set. -/
theorem offsetForSHA_spec (idx : IdxFile) (target : List Nat)
    (hmono : ∀ a b : Nat, a ≤ b → b ≤ 255 →
      idx.fanoutTable.getD a 0 ≤ idx.fanoutTable.getD b 0)
    (hsorted : ∀ j k : Nat, j < k → k < idx.fanoutTable.getD 255 0 →
      compareBytes (shaRec idx j) (shaRec idx k) = -1)
    (hwindow : ∀ k : Nat, k < idx.fanoutTable.getD 255 0 →
      fanLo idx ((shaRec idx k).headD 0) ≤ k ∧
        k < idx.fanoutTable.getD ((shaRec idx k).headD 0) 0)
    (hoffs : ∀ k : Nat, k < idx.fanoutTable.getD 255 0 → resolvedOffset idx k ≠ 0)
    (ht0 : target.headD 0 ≤ 255) :
    (offsetForSHA idx target ≠ 0 ↔
      ∃ k, k < idx.fanoutTable.getD 255 0 ∧ shaRec idx k = target) ∧
    (∀ k, k < idx.fanoutTable.getD 255 0 → shaRec idx k = target →
      offsetForSHA idx target = resolvedOffset idx k) := by
  have hfin_le : idx.fanoutTable.getD (target.headD 0) 0 ≤ idx.fanoutTable.getD 255 0 :=
    hmono _ 255 ht0 le_rfl
  have hfind : ∀ k, k < idx.fanoutTable.getD 255 0 → shaRec idx k = target →
      searchLoop (fun i => compareBytes target
          ((idx.shaTable.drop ((fanLo idx (target.headD 0) + i) * 20)).take 20))
        0 (idx.fanoutTable.getD (target.headD 0) 0 - fanLo idx (target.headD 0)) false =
        (k - fanLo idx (target.headD 0), true) := by
    intro k hk hrec
    have hhead : (shaRec idx k).headD 0 = target.headD 0 := by rw [hrec]
    have hw := hwindow k hk
    rw [hhead] at hw
    refine searchLoop_finds
      (idx.fanoutTable.getD (target.headD 0) 0 - fanLo idx (target.headD 0))
      (fun i => compareBytes target
        ((idx.shaTable.drop ((fanLo idx (target.headD 0) + i) * 20)).take 20))
      0 (idx.fanoutTable.getD (target.headD 0) 0 - fanLo idx (target.headD 0))
      (k - fanLo idx (target.headD 0)) false (by omega) (by omega) (by omega) ?_ ?_ ?_
    · show compareBytes target ((idx.shaTable.drop
        ((fanLo idx (target.headD 0) + (k - fanLo idx (target.headD 0))) * 20)).take 20) = 0
      rw [show fanLo idx (target.headD 0) + (k - fanLo idx (target.headD 0)) = k by omega]
      exact (compareBytes_eq_zero_iff target (shaRec idx k)).mpr hrec.symm
    · intro k2 _ hk2
      show 0 < compareBytes target
        ((idx.shaTable.drop ((fanLo idx (target.headD 0) + k2) * 20)).take 20)
      have hidx : fanLo idx (target.headD 0) + k2 < k := by omega
      have hs := hsorted (fanLo idx (target.headD 0) + k2) k hidx hk
      have ha := compareBytes_antisymm _ _ hs
      rw [hrec] at ha
      have ha' : compareBytes target
          ((idx.shaTable.drop ((fanLo idx (target.headD 0) + k2) * 20)).take 20) = 1 := ha
      omega
    · intro k2 hk2a hk2b
      show compareBytes target
        ((idx.shaTable.drop ((fanLo idx (target.headD 0) + k2) * 20)).take 20) < 0
      have hidx : k < fanLo idx (target.headD 0) + k2 := by omega
      have hlt : fanLo idx (target.headD 0) + k2 < idx.fanoutTable.getD 255 0 := by omega
      have hs := hsorted k (fanLo idx (target.headD 0) + k2) hidx hlt
      rw [hrec] at hs
      have hs' : compareBytes target
          ((idx.shaTable.drop ((fanLo idx (target.headD 0) + k2) * 20)).take 20) = -1 := hs
      omega
  rw [show offsetForSHA idx target = (if (searchLoop (fun i => compareBytes target
      ((idx.shaTable.drop ((fanLo idx (target.headD 0) + i) * 20)).take 20))
      0 (idx.fanoutTable.getD (target.headD 0) 0 - fanLo idx (target.headD 0)) false).2 = false
    then 0
    else resolvedOffset idx (fanLo idx (target.headD 0) + (searchLoop (fun i => compareBytes target
      ((idx.shaTable.drop ((fanLo idx (target.headD 0) + i) * 20)).take 20))
      0 (idx.fanoutTable.getD (target.headD 0) 0 - fanLo idx (target.headD 0)) false).1))
    from rfl]
  generalize hsr : searchLoop (fun i => compareBytes target
      ((idx.shaTable.drop ((fanLo idx (target.headD 0) + i) * 20)).take 20))
      0 (idx.fanoutTable.getD (target.headD 0) 0 - fanLo idx (target.headD 0)) false = rp
  obtain ⟨r1, r2⟩ := rp
  cases r2 with
  | false =>
    refine ⟨⟨fun hne => absurd (by simp) hne, ?_⟩, ?_⟩
    · rintro ⟨k, hk, hrec⟩
      have h := hfind k hk hrec
      rw [hsr] at h
      exact absurd (congrArg Prod.snd h) (by simp)
    · intro k hk hrec
      have h := hfind k hk hrec
      rw [hsr] at h
      exact absurd (congrArg Prod.snd h) (by simp)
  | true =>
    have hval : ∀ k, k < idx.fanoutTable.getD 255 0 → shaRec idx k = target →
        (if (true : Bool) = false then 0
          else resolvedOffset idx (fanLo idx (target.headD 0) + r1)) = resolvedOffset idx k := by
      intro k hk hrec
      have h := hfind k hk hrec
      rw [hsr] at h
      have h1 : r1 = k - fanLo idx (target.headD 0) := by
        have := congrArg Prod.fst h
        simpa using this
      have hhead : (shaRec idx k).headD 0 = target.headD 0 := by rw [hrec]
      have hw := hwindow k hk
      rw [hhead] at hw
      rw [if_neg (by simp), h1,
        show fanLo idx (target.headD 0) + (k - fanLo idx (target.headD 0)) = k by omega]
    refine ⟨⟨fun _ => ?_, ?_⟩, hval⟩
    · have hex := searchLoop_exact
        (idx.fanoutTable.getD (target.headD 0) 0 - fanLo idx (target.headD 0))
        (fun i => compareBytes target
          ((idx.shaTable.drop ((fanLo idx (target.headD 0) + i) * 20)).take 20))
        0 (idx.fanoutTable.getD (target.headD 0) 0 - fanLo idx (target.headD 0)) false r1
        (by omega) hsr
      rcases hex with hfalse | ⟨m, _, hmn, hpm⟩
      · exact absurd hfalse (by simp)
      · have heq : (idx.shaTable.drop ((fanLo idx (target.headD 0) + m) * 20)).take 20 =
            target :=
          ((compareBytes_eq_zero_iff target _).mp hpm).symm
        exact ⟨fanLo idx (target.headD 0) + m, by omega, heq⟩
    · rintro ⟨k, hk, hrec⟩
      rw [hval k hk hrec]
      exact hoffs k hk

/-- Concrete well-formed one-object index for the C1 witness. -/
def wIdx : IdxFile :=
  { packpath := "p.pack"
    fanoutTable := List.replicate 256 1
    shaTable := List.replicate 20 0
    offsetTable := [0, 0, 0, 12]
    offset8Table := [] }

/-- The identifier stored in `wIdx`. -/
def wTarget : List Nat := List.replicate 20 0

theorem wIdx_getD (c : Nat) (hc : c ≤ 255) : wIdx.fanoutTable.getD c 0 = 1 := by
  rw [List.getD_eq_getElem?_getD]
  rw [show wIdx.fanoutTable = List.replicate 256 1 from rfl, List.getElem?_replicate,
    if_pos (by omega)]
  rfl

/-- C1 witness: in the one-object index, looking up the stored
identifier returns its stored offset 12. -/
theorem offsetForSHA_spec_witness : offsetForSHA wIdx wTarget = 12 := by
  have h := offsetForSHA_spec wIdx wTarget
    (fun a b hab hb => by rw [wIdx_getD a (by omega), wIdx_getD b hb])
    (fun j k hjk hk => by rw [wIdx_getD 255 (by omega)] at hk; omega)
    (by rw [wIdx_getD 255 (by omega)]; decide)
    (by rw [wIdx_getD 255 (by omega)]; decide)
    (by decide)
  have h2 := h.2 0 (by rw [wIdx_getD 255 (by omega)]; omega) (by decide)
  rw [h2]
  decide

/-- `readIdxFile`: the idx file and the first bytes of the companion
pack are passed as byte lists (the mmap and the 8-byte header read).
The Go code checks only `bytes.HasPrefix(idxMmap, {255, 't', 'O', 'c'})`
— the four magic bytes — before parsing; the version word at bytes
4..7 is never examined.  Then the 256 fanout entries are read at byte
`8 + i*4`, the three tables are sliced relative to
`numObjects = fanout[255]`, and the pack header must read 8 bytes and
start with `PACK`. -/
def readIdxFile (path : String) (idxMmap : List Nat) (packFile : List Nat) :
    Except String IdxFile :=
  if ¬ [255, 116, 79, 99].isPrefixOf idxMmap then .error "Not version 2 index file"
  else
    let fanoutTable := (List.range 256).map (fun i => beU32 ((idxMmap.drop (8 + i * 4)).take 4))
    let numObjects := fanoutTable.getD 255 0
    let shaStart := 8 + 256 * 4
    let shaTable := (idxMmap.drop shaStart).take (20 * numObjects)
    let offsetStart := shaStart + 24 * numObjects
    let offsetTable := (idxMmap.drop offsetStart).take (4 * numObjects)
    let offset8Start := offsetStart + 4 * numObjects
    let offset8Table := (idxMmap.drop offset8Start).take (idxMmap.length - 40 - offset8Start)
    if packFile.length < 8 then .error "EOF reading pack header"
    else if ¬ [80, 65, 67, 75].isPrefixOf packFile then
      .error "Pack file does not start with PACK"
    else
      .ok { packpath := path.dropRight 3 ++ "pack", fanoutTable := fanoutTable,
            shaTable := shaTable, offsetTable := offsetTable, offset8Table := offset8Table }

/-- C6 counterexample: a structurally complete index whose magic bytes
are right but whose version word is `00 00 00 01` — not 2 — is
accepted by `readIdxFile`, refuting the claim that opening verifies
the version word. -/
def v1Idx : List Nat := [255, 116, 79, 99, 0, 0, 0, 1] ++ List.replicate 1064 0

/-- An 8-byte `PACK` header for the C6 inputs. -/
def packHdr : List Nat := [80, 65, 67, 75, 0, 0, 0, 2]

set_option maxRecDepth 100000

theorem readIdxFile_version_counterexample :
    readIdxFile "p.idx" v1Idx packHdr =
      .ok { packpath := "p.pack", fanoutTable := List.replicate 256 0,
            shaTable := [], offsetTable := [], offset8Table := [] } ∧
    v1Idx.take 8 = [255, 116, 79, 99, 0, 0, 0, 1] := by
  constructor
  · rfl
  · decide

/-- C6 amended: `readIdxFile` verifies only the four magic bytes
`FF 74 4F 63`; whenever they are not a prefix of the input it fails
with the (misleadingly named) error `Not version 2 index file`, but
the version word in bytes 4..7 is never examined, so an index with
the magic and a version word other than 2 is not rejected by the
header check. -/
theorem readIdxFile_magic_spec (path : String) (idxMmap packFile : List Nat)
    (h : ¬ [255, 116, 79, 99].isPrefixOf idxMmap) :
    readIdxFile path idxMmap packFile = .error "Not version 2 index file" := by
  rw [readIdxFile, if_pos h]

/-- C6 witness: a file starting with zero bytes is rejected by the
magic check. -/
theorem readIdxFile_magic_spec_witness :
    readIdxFile "p.idx" [0, 0, 0, 0] [] = .error "Not version 2 index file" :=
  readIdxFile_magic_spec "p.idx" [0, 0, 0, 0] [] (by decide)

/-- The 1 KiB speculative read of `readObjectBytes`: `buf` is a
1024-byte array, zero-filled past the bytes actually read. -/
def packBuf (pack : List Nat) (offset : Nat) : List Nat :=
  ((pack.drop offset) ++ List.replicate 1024 0).take 1024

/-- `ot := ObjectType(buf[0] & 0x70)`. -/
def objTypeAt (pack : List Nat) (offset : Nat) : Nat :=
  (packBuf pack offset).getD 0 0 &&& 0x70

/-- `readObjectBytes(path, offset, sizeonly)`, embedded over the pack
bytes and an abstract `inflate start size` standing for
`readCompressedDataFromFile(file, start, size)`.  `fuel` bounds the
delta-chain recursion depth (the Go code recurses unboundedly; running
out of fuel models the stack fault a cyclic back-reference would
cause).  Stored objects (`0x10..0x40`) inflate `length` bytes after
the header; `0x60` decodes the back-reference, reads the base at
`offset - num` recursively, inflates the delta stream requesting the
header-decoded `length`, skips the two little-endian base-128 numbers,
and applies the delta; `0x70` is unimplemented; any other raw type
falls through to the recursion with `baseObjectOffset = 0`.  Note the
returned length in the non-sizeonly delta path is still the
header-decoded `length` (the delta program size): the source only
assigns `length = resultObjectLength` under `sizeonly`. -/
def readObjectBytes (pack : List Nat) (inflate : Nat → Nat → Except GoErr (List Nat)) :
    Nat → Nat → Bool → Except GoErr (Nat × Nat × List Nat)
  | 0, _, _ => .error (.goPanic "stack overflow")
  | fuel + 1, offset, sizeonly =>
    if pack.length ≤ offset then .error (.goError "Nothing read from pack file")
    else
      match readLenInPackFile (packBuf pack offset) with
      | none => .error (.goPanic "index out of range")
      | some (l, p) =>
        if objTypeAt pack offset = 0x10 ∨ objTypeAt pack offset = 0x20 ∨
            objTypeAt pack offset = 0x30 ∨ objTypeAt pack offset = 0x40 then
          if sizeonly then .ok (objTypeAt pack offset, l, [])
          else
            match inflate (offset + p) l with
            | .error e => .error e
            | .ok data => .ok (objTypeAt pack offset, l, data)
        else if objTypeAt pack offset = 0x70 then .error (.goError "not implemented yet")
        else
          match (if objTypeAt pack offset = 0x60 then
              match deltaRefGo (packBuf pack offset) p with
              | none => .error (.goPanic "index out of range")
              | some (num, p2) => .ok (baseOffsetOf offset num, p2)
            else .ok (0, p) : Except GoErr (Nat × Nat)) with
          | .error e => .error e
          | .ok (baseObjectOffset, pos) =>
            match readObjectBytes pack inflate fuel baseObjectOffset false with
            | .error e => .error e
            | .ok (otB, _, base) =>
              match inflate (offset + pos) l with
              | .error e => .error e
              | .ok b =>
                match readLittleEndianBase128Number b with
                | none => .error (.goPanic "index out of range")
                | some (_, r1) =>
                  match readLittleEndianBase128Number (b.drop r1) with
                  | none => .error (.goPanic "index out of range")
                  | some (resultLen, r2) =>
                    if sizeonly then .ok (otB, resultLen, [])
                    else
                      match applyDelta (b.drop (r1 + r2)) base resultLen with
                      | .error e => .error e
                      | .ok data => .ok (otB, l, data)

theorem readObjectBytes_type_inv : ∀ (fuel : Nat) (pack : List Nat)
    (inflate : Nat → Nat → Except GoErr (List Nat)) (offset : Nat) (sizeonly : Bool)
    (t len : Nat) (d : List Nat),
    readObjectBytes pack inflate fuel offset sizeonly = .ok (t, len, d) →
    t = 0x10 ∨ t = 0x20 ∨ t = 0x30 ∨ t = 0x40 := by
  intro fuel
  induction fuel with
  | zero =>
    intro pack inflate offset sizeonly t len d h
    rw [readObjectBytes] at h
    simp at h
  | succ fuel ih =>
    intro pack inflate offset sizeonly t len d h
    rw [readObjectBytes] at h
    split at h
    · simp at h
    · split at h
      · simp at h
      · split at h
        · split at h
          · simp only [Except.ok.injEq, Prod.mk.injEq] at h
            rcases h with ⟨h1, -, -⟩
            subst h1
            assumption
          · split at h
            · simp at h
            · simp only [Except.ok.injEq, Prod.mk.injEq] at h
              rcases h with ⟨h1, -, -⟩
              subst h1
              assumption
        · split at h
          · simp at h
          · split at h
            · simp at h
            · split at h
              · simp at h
              · split at h
                · simp at h
                · split at h
                  · simp at h
                  · split at h
                    · simp at h
                    · split at h
                      · simp only [Except.ok.injEq, Prod.mk.injEq] at h
                        rcases h with ⟨h1, -, -⟩
                        subst h1
                        exact ih pack inflate _ false _ _ _ (by assumption)
                      · split at h
                        · simp at h
                        · simp only [Except.ok.injEq, Prod.mk.injEq] at h
                          rcases h with ⟨h1, -, -⟩
                          subst h1
                          exact ih pack inflate _ false _ _ _ (by assumption)

theorem readObjectBytes_delta_eq (pack : List Nat)
    (inflate : Nat → Nat → Except GoErr (List Nat))
    (fuel offset l p num p2 otB lb skip r1 resultLen r2 : Nat)
    (base b data : List Nat)
    (hoff : offset < pack.length)
    (hot : objTypeAt pack offset = 0x60)
    (hlen : readLenInPackFile (packBuf pack offset) = some (l, p))
    (href : deltaRefGo (packBuf pack offset) p = some (num, p2))
    (hbase : readObjectBytes pack inflate fuel (baseOffsetOf offset num) false =
      .ok (otB, lb, base))
    (hinf : inflate (offset + p2) l = .ok b)
    (h1 : readLittleEndianBase128Number b = some (skip, r1))
    (h2 : readLittleEndianBase128Number (b.drop r1) = some (resultLen, r2))
    (happ : applyDelta (b.drop (r1 + r2)) base resultLen = .ok data) :
    readObjectBytes pack inflate (fuel + 1) offset false = .ok (otB, l, data) := by
  rw [readObjectBytes]
  rw [if_neg (show ¬ pack.length ≤ offset by omega)]
  rw [hlen]
  simp only [hot]
  rw [if_neg (show ¬ ((0x60 : Nat) = 0x10 ∨ (0x60 : Nat) = 0x20 ∨ (0x60 : Nat) = 0x30 ∨
    (0x60 : Nat) = 0x40) by decide)]
  rw [if_neg (show ¬ (0x60 : Nat) = 0x70 by decide)]
  simp only [if_true]
  rw [href]
  simp only []
  rw [hbase]
  simp only []
  rw [hinf]
  simp only []
  rw [h1]
  simp only []
  rw [h2]
  simp only []
  rw [if_neg (show ¬ (false : Bool) = true by simp)]
  rw [happ]

/-- C2 amended: for an offset-delta object (`0x60`) read with
`sizeonly = false`, `readObjectBytes` inflates the delta stream
requesting exactly the size decoded from the packed-object header,
applies the remaining delta (after the two base-128 numbers) to the
recursively read base with the second base-128 number as declared
result size, and returns the base's effective type — always one of the
four true types — together with the reconstructed bytes; but the
returned length is the header-decoded size of the delta program, not
the second base-128 number (that value is only returned as length when
`sizeonly = true`). -/
theorem readObjectBytes_delta_spec (pack : List Nat)
    (inflate : Nat → Nat → Except GoErr (List Nat))
    (fuel offset l p num p2 otB lb skip r1 resultLen r2 : Nat)
    (base b data : List Nat)
    (hoff : offset < pack.length)
    (hot : objTypeAt pack offset = 0x60)
    (hlen : readLenInPackFile (packBuf pack offset) = some (l, p))
    (href : deltaRefGo (packBuf pack offset) p = some (num, p2))
    (hbase : readObjectBytes pack inflate fuel (baseOffsetOf offset num) false =
      .ok (otB, lb, base))
    (hinf : inflate (offset + p2) l = .ok b)
    (h1 : readLittleEndianBase128Number b = some (skip, r1))
    (h2 : readLittleEndianBase128Number (b.drop r1) = some (resultLen, r2))
    (happ : applyDelta (b.drop (r1 + r2)) base resultLen = .ok data) :
    readObjectBytes pack inflate (fuel + 1) offset false = .ok (otB, l, data) ∧
    (otB = 0x10 ∨ otB = 0x20 ∨ otB = 0x30 ∨ otB = 0x40) :=
  ⟨readObjectBytes_delta_eq pack inflate fuel offset l p num p2 otB lb skip r1 resultLen r2
      base b data hoff hot hlen href hbase hinf h1 h2 happ,
    readObjectBytes_type_inv fuel pack inflate (baseOffsetOf offset num) false otB lb base hbase⟩

/-- A five-byte pack: a 1-byte blob at offset 0 (header `0x31`), and
at offset 2 an offset-delta (header `0x65`: type `0x60`, size 5 — the
inflated size of the delta program) whose back-reference byte `0x02`
points at the blob. -/
def demoPack : List Nat := [0x31, 0, 0x65, 2, 0]

/-- The abstract inflater for `demoPack`: at position 1 the blob's
1-byte payload `A`; at position 4 the 5-byte delta program
`[1, 2, 2, 66, 67]` (base size 1, result size 2, insert `B C`). -/
def demoInflate : Nat → Nat → Except GoErr (List Nat) := fun s n =>
  if s = 1 ∧ n = 1 then .ok [65]
  else if s = 4 ∧ n = 5 then .ok [1, 2, 2, 66, 67]
  else .error (.goError "bad zlib stream")

/-- C2 counterexample: reading the delta at offset 2 of `demoPack`
succeeds with bytes `[66, 67]` but length 5 — the delta program's
inflated size — while the second base-128 number of the inflated delta
(the reconstructed object's size) is 2, refuting the claim that the
returned length is the reconstructed size. -/
theorem readObjectBytes_len_counterexample :
    readObjectBytes demoPack demoInflate 2 2 false = .ok (48, 5, [66, 67]) ∧
    readLittleEndianBase128Number (List.drop 1 [1, 2, 2, 66, 67]) = some (2, 1) ∧
    (5 : Nat) ≠ 2 := by
  have happ : applyDelta [2, 66, 67] [65] 2 = .ok [66, 67] := by
    simp [applyDelta, deltaLoop, writeSeg, show (2 : Nat) &&& 128 = 0 from rfl]
  refine ⟨?_, by decide, by decide⟩
  have h := readObjectBytes_delta_eq demoPack demoInflate 1 2 5 1 2 2 48 1 1 1 2 1
    [65] [1, 2, 2, 66, 67] [66, 67] (by decide) (by decide) (by decide) (by decide)
    (by rfl) (by rfl) (by decide) (by decide) happ
  exact h

/-- C2 witness: the amended theorem applied to `demoPack`. -/
theorem readObjectBytes_delta_spec_witness :
    readObjectBytes demoPack demoInflate 2 2 false = .ok (48, 5, [66, 67]) ∧
    ((48 : Nat) = 0x10 ∨ (48 : Nat) = 0x20 ∨ (48 : Nat) = 0x30 ∨ (48 : Nat) = 0x40) := by
  have happ : applyDelta [2, 66, 67] [65] 2 = .ok [66, 67] := by
    simp [applyDelta, deltaLoop, writeSeg, show (2 : Nat) &&& 128 = 0 from rfl]
  have h := readObjectBytes_delta_spec demoPack demoInflate 1 2 5 1 2 2 48 1 1 1 2 1
    [65] [1, 2, 2, 66, 67] [66, 67] (by decide) (by decide) (by decide) (by decide)
    (by rfl) (by rfl) (by decide) (by decide) happ
  exact h

/-- `filepathFromSHA1(rootdir, sha1)`: the loose-object path
`rootdir/objects/<sha1[:2]>/<sha1[2:]>` (`filepath.Join` with the
Unix separator). -/
def filepathFromSHA1 (rootdir sha1 : String) : String :=
  rootdir ++ "/objects/" ++ sha1.take 2 ++ "/" ++ sha1.drop 2

/-- The index loop of `getRawObject`: for each index file in order,
if `offsetForSHA` is nonzero delegate to the pack reader with the
index's `packpath` and that offset; with no hit, `errObjNotFound`
(`errors.New("object not found")`). -/
def getRawObjectLoop (readObjectBytesF : String → Nat → Except GoErr (Nat × Nat × List Nat))
    (oidBytes : List Nat) : List IdxFile → Except GoErr (Nat × Nat × List Nat)
  | [] => .error (.goError "object not found")
  | idx :: rest =>
    if offsetForSHA idx oidBytes ≠ 0 then
      readObjectBytesF idx.packpath (offsetForSHA idx oidBytes)
    else getRawObjectLoop readObjectBytesF oidBytes rest

/-- `getRawObject`, with the filesystem and the two readers abstract:
`statNotExist p` is `os.IsNotExist(os.Stat(p))`, `readObjectFileF` is
the loose reader at a path, `readObjectBytesF` the pack reader at a
pack path and offset; `oidStr` is `oid.String()` (the 40-char hex) and
`oidBytes` is `oid.Bytes`. -/
def getRawObject (statNotExist : String → Bool)
    (readObjectFileF : String → Except GoErr (Nat × Nat × List Nat))
    (readObjectBytesF : String → Nat → Except GoErr (Nat × Nat × List Nat))
    (reposPath : String) (indexfiles : List IdxFile)
    (oidStr : String) (oidBytes : List Nat) : Except GoErr (Nat × Nat × List Nat) :=
  if statNotExist (filepathFromSHA1 reposPath oidStr) then
    getRawObjectLoop readObjectBytesF oidBytes indexfiles
  else readObjectFileF (filepathFromSHA1 reposPath oidStr)

theorem getRawObjectLoop_find (readObjectBytesF : String → Nat → Except GoErr (Nat × Nat × List Nat))
    (oidBytes : List Nat) : ∀ idxs : List IdxFile,
    getRawObjectLoop readObjectBytesF oidBytes idxs =
      match idxs.find? (fun idx => offsetForSHA idx oidBytes != 0) with
      | some idx => readObjectBytesF idx.packpath (offsetForSHA idx oidBytes)
      | none => .error (.goError "object not found") := by
  intro idxs
  induction idxs with
  | nil => simp [getRawObjectLoop]
  | cons a rest ih =>
    by_cases h : offsetForSHA a oidBytes = 0
    · rw [getRawObjectLoop, if_neg (by omega)]
      rw [ih]
      simp [List.find?_cons, h]
    · rw [getRawObjectLoop, if_pos h]
      simp [List.find?_cons, h]

/-- C9: `getRawObject` first forms the loose path
`path/objects/<id[0:2]>/<id[2:]>`; if that file exists it delegates to
the loose reader (independently of any index), otherwise it queries
the index files in order and delegates to the pack reader on the first
whose `offsetForSHA` is nonzero, and with no loose file and no index
hit it returns the object-not-found error. -/
theorem getRawObject_spec (statNotExist : String → Bool)
    (readObjectFileF : String → Except GoErr (Nat × Nat × List Nat))
    (readObjectBytesF : String → Nat → Except GoErr (Nat × Nat × List Nat))
    (reposPath oidStr : String) (indexfiles : List IdxFile) (oidBytes : List Nat) :
    getRawObject statNotExist readObjectFileF readObjectBytesF reposPath indexfiles
        oidStr oidBytes =
      if statNotExist (reposPath ++ "/objects/" ++ oidStr.take 2 ++ "/" ++ oidStr.drop 2) then
        match indexfiles.find? (fun idx => offsetForSHA idx oidBytes != 0) with
        | some idx => readObjectBytesF idx.packpath (offsetForSHA idx oidBytes)
        | none => .error (.goError "object not found")
      else readObjectFileF (reposPath ++ "/objects/" ++ oidStr.take 2 ++ "/" ++ oidStr.drop 2) := by
  rw [getRawObject, filepathFromSHA1, getRawObjectLoop_find]

end Gogit
